import Mathlib

/-!
Shallow embedding of the `wipsim` ticket-servicing simulation (Go, package
`main`, the five-policy variant).  Go's pointer-mutated `ticket` records become
an explicit `Ticket` value; the in-place slice mutation of `remaining` becomes
`List.set`; machine `int` becomes `Int` (values stay far from overflow).  Day
indices are `Nat` because they index the `remaining` array.
-/

/-- Embeds the Go `ticket` struct: `startday`, `leadtime`, `endday`, `effort`
and the per-day `remaining` effort array. -/
structure Ticket where
  startday : Nat
  leadtime : Int
  endday : Nat
  effort : Int
  remaining : List Int
  deriving Repr, DecidableEq, Inhabited

/-- Embeds Go `NewTicket`: zero-initialised array of length `totaldays` with
`remaining[startday] = effort`; `leadtime` and `endday` start at Go's zero value. -/
def NewTicket (startday : Nat) (effort : Int) (totaldays : Nat) : Ticket :=
  { startday := startday
    leadtime := 0
    endday := 0
    effort := effort
    remaining := (List.replicate totaldays (0 : Int)).set startday effort }

/-- Embeds Go `workhoursday`, the daily capacity. -/
def workhoursday : Int := 8

/-- Embeds Go `(*ticket).burndownhours(day, hoursleft, hours)`.  Reads
`workremain := t.remaining[day]`; if `workremain > 0` and `hoursleft > 0` it
clamps `hours` to `workremain` and then to `hoursleft`, spends that amount, and
(whenever `workremain > 0`, worked or not) stamps `endday := day` and
`leadtime := day + 1 - startday`; in every case it writes the (decremented or
carried-forward) remain into slot `day + 1` and returns the updated
`hoursleft`.  The Go in-place mutation is returned as the pair
(updated ticket, updated hoursleft). -/
def burndownhours (t : Ticket) (day : Nat) (hoursleft hours : Int) : Ticket × Int :=
  let d1 := day + 1
  let workremain := t.remaining.getD day 0
  if 0 < workremain then
    if 0 < hoursleft then
      let h1 := if workremain < hours then workremain else hours
      let h2 := if hoursleft < h1 then hoursleft else h1
      ({ t with endday := day
                leadtime := (day : Int) + 1 - (t.startday : Int)
                remaining := t.remaining.set d1 (workremain - h2) },
        hoursleft - h2)
    else
      ({ t with endday := day
                leadtime := (day : Int) + 1 - (t.startday : Int)
                remaining := t.remaining.set d1 workremain },
        hoursleft)
  else
    ({ t with remaining := t.remaining.set d1 workremain }, hoursleft)

section ListHelpers

theorem getD_set_self {α : Type _} {l : List α} {i : Nat} {a d : α} (h : i < l.length) :
    (l.set i a).getD i d = a := by
  simp [List.getD, List.getElem?_set_self, h]

theorem getD_set_ne {α : Type _} {l : List α} {i j : Nat} {a d : α} (h : i ≠ j) :
    (l.set i a).getD j d = l.getD j d := by
  simp [List.getD, List.getElem?_set_ne h]

theorem getD_set_oob {α : Type _} {l : List α} {i : Nat} {a d : α} (h : l.length ≤ i) :
    ∀ j, (l.set i a).getD j d = l.getD j d := by
  intro j
  rw [List.set_eq_of_length_le h]

end ListHelpers

/-- C1: with positive remaining effort and positive capacity, `burndownhours`
spends exactly `h = min(remaining, hours, hoursleft)`: slot `day+1` receives
`remaining - h` and the returned capacity is `hoursleft - h`. -/
theorem burndownhours_spends_min (t : Ticket) (day : Nat) (hoursleft hours : Int)
    (hlen : day + 1 < t.remaining.length)
    (hrem : 0 < t.remaining.getD day 0)
    (hhl : 0 < hoursleft) :
    (burndownhours t day hoursleft hours).1.remaining.getD (day + 1) 0
        = t.remaining.getD day 0
          - min (t.remaining.getD day 0) (min hours hoursleft)
      ∧ (burndownhours t day hoursleft hours).2
        = hoursleft - min (t.remaining.getD day 0) (min hours hoursleft) := by
  simp only [burndownhours, if_pos hrem, if_pos hhl]
  rw [getD_set_self hlen]
  constructor <;> (split_ifs <;> omega)

/-- Witness for `burndownhours_spends_min` at a concrete ticket. -/
theorem burndownhours_spends_min_witness :
    ((burndownhours (NewTicket 0 5 3) 0 8 2).1.remaining.getD 1 0
        = 5 - min 5 (min 2 8)
      ∧ (burndownhours (NewTicket 0 5 3) 0 8 2).2 = 8 - min 5 (min 2 8)) := by
  have h := burndownhours_spends_min (NewTicket 0 5 3) 0 8 2
    (by decide) (by decide) (by decide)
  simpa using h

/-- C2 counterexample: the claim says `end_day`/`lead_time` change only when the
ticket receives nonzero hours.  Concretely, for a ticket with remaining effort 5
on day 3 and `hoursleft = 0`, the call spends zero hours (capacity is returned
unchanged) yet still rewrites `endday` from 0 to 3 and `leadtime` from 0 to 4. -/
theorem burndownhours_updates_without_work :
    (burndownhours (NewTicket 0 5 6) 3 0 5).2 = 0
      ∧ (NewTicket 0 5 6).endday = 0
      ∧ (NewTicket 0 5 6).leadtime = 0
      ∧ (burndownhours { NewTicket 0 5 6 with remaining := [5, 5, 5, 5, 0, 0] } 3 0 5).1.endday = 3
      ∧ (burndownhours { NewTicket 0 5 6 with remaining := [5, 5, 5, 5, 0, 0] } 3 0 5).2 = 0
      ∧ (burndownhours { NewTicket 0 5 6 with remaining := [5, 5, 5, 5, 0, 0] } 3 0 5).1.leadtime = 4 := by
  decide

/-- C2 amended: `burndownhours` stamps `endday := day` and
`leadtime := day + 1 - startday` on every call where the ticket's remaining
effort for the day is positive — whether or not any hours are available,
offered, or actually spent — and leaves both fields unchanged whenever the
remaining effort for the day is not positive (hence both stay frozen once the
ticket has reached zero remaining effort). -/
theorem burndownhours_endday_leadtime (t : Ticket) (day : Nat) (hoursleft hours : Int) :
    (0 < t.remaining.getD day 0 →
        (burndownhours t day hoursleft hours).1.endday = day
          ∧ (burndownhours t day hoursleft hours).1.leadtime
              = (day : Int) + 1 - (t.startday : Int))
      ∧ (t.remaining.getD day 0 ≤ 0 →
        (burndownhours t day hoursleft hours).1.endday = t.endday
          ∧ (burndownhours t day hoursleft hours).1.leadtime = t.leadtime) := by
  simp only [burndownhours]
  constructor
  · intro h
    rw [if_pos h]
    split_ifs <;> simp
  · intro h
    rw [if_neg (by omega)]
    exact ⟨rfl, rfl⟩

/-- Witness for `burndownhours_endday_leadtime` at a concrete ticket. -/
theorem burndownhours_endday_leadtime_witness :
    ((0:Int) < (NewTicket 0 5 3).remaining.getD 0 0
      ∧ (burndownhours (NewTicket 0 5 3) 0 8 8).1.endday = 0
      ∧ (burndownhours (NewTicket 0 5 3) 0 8 8).1.leadtime = (0 : Int) + 1 - 0) := by
  refine ⟨by decide, ?_⟩
  have h := (burndownhours_endday_leadtime (NewTicket 0 5 3) 0 8 8).1 (by decide)
  simpa using h

/-- Models one step of Go's `sort.Slice` insertion sort (`sort.insertionSort`):
the new element `a` bubbles left from the end of the already-sorted prefix
`ys`, moving past each neighbour `b` exactly while `less a b` holds, i.e. it
moves past the longest suffix of `ys` all of whose elements satisfy
`less a`. -/
def sortInsertGo (less : α → α → Bool) (ys : List α) (a : α) : List α :=
  (ys.reverse.dropWhile (fun b => less a b)).reverse
    ++ a :: (ys.reverse.takeWhile (fun b => less a b)).reverse

/-- Models Go's `sort.Slice` on a short slice (the library runs plain insertion
sort there): elements are inserted left to right with `sortInsertGo`. -/
def sortSliceGo (less : α → α → Bool) (l : List α) : List α :=
  l.foldl (fun acc a => sortInsertGo less acc a) []

theorem sortInsertGo_perm (less : α → α → Bool) (ys : List α) (a : α) :
    (sortInsertGo less ys a).Perm (a :: ys) := by
  unfold sortInsertGo
  have hsplit := List.takeWhile_append_dropWhile (fun b => less a b) ys.reverse
  have hrev : (ys.reverse.dropWhile (fun b => less a b)).reverse
      ++ (ys.reverse.takeWhile (fun b => less a b)).reverse = ys := by
    rw [← List.reverse_append, hsplit, List.reverse_reverse]
  have h : ((ys.reverse.dropWhile (fun b => less a b)).reverse
      ++ a :: (ys.reverse.takeWhile (fun b => less a b)).reverse).Perm
      (a :: ((ys.reverse.dropWhile (fun b => less a b)).reverse
      ++ (ys.reverse.takeWhile (fun b => less a b)).reverse)) := List.perm_middle
  rw [hrev] at h
  exact h

theorem sortSliceGo_perm (less : α → α → Bool) (l : List α) :
    (sortSliceGo less l).Perm l := by
  suffices h : ∀ (l acc : List α),
      (l.foldl (fun acc a => sortInsertGo less acc a) acc).Perm (acc ++ l) by
    simpa [sortSliceGo] using h l []
  intro l
  induction l with
  | nil => intro acc; simp
  | cons a l ih =>
      intro acc
      have h1 : (List.foldl (fun acc a => sortInsertGo less acc a)
          (sortInsertGo less acc a) l).Perm (sortInsertGo less acc a ++ l) := ih _
      have h2 : (sortInsertGo less acc a ++ l).Perm ((a :: acc) ++ l) :=
        (sortInsertGo_perm less acc a).append_right l
      have h3 : ((a :: acc) ++ l).Perm (acc ++ a :: l) := List.perm_middle.symm
      exact (h1.trans h2).trans h3

/-- Burns a sequence of population indices in the given order, threading the
remaining capacity through the `burndownhours` calls exactly as the Go policy
loops do through their (possibly sorted) slice of ticket pointers; `offer` is
the `hours` argument each loop passes (`2` for the first Equal-working pass,
the current `hoursleft` for all uncapped loops). -/
def burnOrder (day : Nat) (offer : Int → Int) : List Nat → List Ticket → Int → List Ticket × Int
  | [], ts, hoursleft => (ts, hoursleft)
  | i :: is, ts, hoursleft =>
      let r := burndownhours (ts.getD i default) day hoursleft (offer hoursleft)
      burnOrder day offer is (ts.set i r.1) r.2

/-- Embeds the first loop of Go `burndownMaxWip`: every ticket in population
order is offered `hourswork = 2`. -/
def maxWipPass1 (day : Nat) (ts : List Ticket) : List Ticket × Int :=
  burnOrder day (fun _ => 2) (List.range ts.length) ts workhoursday

/-- Embeds Go `burndownMaxWip` (the Equal-working policy): a capped first pass,
then — only if `hoursleft > 0` survives it — a second uncapped pass over the
same population order. -/
def burndownMaxWip (day : Nat) (ts : List Ticket) : List Ticket :=
  let p1 := maxWipPass1 day ts
  if 0 < p1.2 then
    (burnOrder day (fun hoursleft => hoursleft) (List.range ts.length) p1.1 p1.2).1
  else p1.1

/-- Embeds Go `burndownOldestFirst`: single uncapped pass in population
(arrival) order. -/
def burndownOldestFirst (day : Nat) (ts : List Ticket) : List Ticket :=
  (burnOrder day (fun hoursleft => hoursleft) (List.range ts.length) ts workhoursday).1

/-- Embeds the comparator of Go `burndownSjf`: ascending remaining effort for
the day. -/
def sjfLess (day : Nat) (ts : List Ticket) (i j : Nat) : Bool :=
  decide ((ts.getD i default).remaining.getD day 0 < (ts.getD j default).remaining.getD day 0)

/-- The processing order of Go `burndownSjf`: `sort.Slice` over a copy of the
ticket-pointer slice (indices into the unchanged population). -/
def sjfOrder (day : Nat) (ts : List Ticket) : List Nat :=
  sortSliceGo (sjfLess day ts) (List.range ts.length)

/-- Embeds Go `burndownSjf`: uncapped pass in `sjfOrder`. -/
def burndownSjf (day : Nat) (ts : List Ticket) : List Ticket :=
  (burnOrder day (fun hoursleft => hoursleft) (sjfOrder day ts) ts workhoursday).1

/-- Embeds the comparator of Go `burndownOsjf` verbatim: `true` when
`ti.startday < tj.startday`, otherwise it falls through to comparing the
remaining effort for the day (note: this is not a lexicographic comparison —
the fallthrough also fires when `ti.startday > tj.startday`). -/
def osjfLess (day : Nat) (ts : List Ticket) (i j : Nat) : Bool :=
  if (ts.getD i default).startday < (ts.getD j default).startday then true
  else decide ((ts.getD i default).remaining.getD day 0 < (ts.getD j default).remaining.getD day 0)

/-- The processing order of Go `burndownOsjf`. -/
def osjfOrder (day : Nat) (ts : List Ticket) : List Nat :=
  sortSliceGo (osjfLess day ts) (List.range ts.length)

/-- Embeds Go `burndownOsjf`: uncapped pass in `osjfOrder`. -/
def burndownOsjf (day : Nat) (ts : List Ticket) : List Ticket :=
  (burnOrder day (fun hoursleft => hoursleft) (osjfOrder day ts) ts workhoursday).1

/-- Embeds the comparator of Go `burndownAwsjf`: ascending
`remaining[day] / (day + 1 - startday)` with Go's truncating integer division
(`Int.tdiv`). -/
def awsjfLess (day : Nat) (ts : List Ticket) (i j : Nat) : Bool :=
  decide (Int.tdiv ((ts.getD i default).remaining.getD day 0)
            ((day : Int) + 1 - ((ts.getD i default).startday : Int))
        < Int.tdiv ((ts.getD j default).remaining.getD day 0)
            ((day : Int) + 1 - ((ts.getD j default).startday : Int)))

/-- The processing order of Go `burndownAwsjf`. -/
def awsjfOrder (day : Nat) (ts : List Ticket) : List Nat :=
  sortSliceGo (awsjfLess day ts) (List.range ts.length)

/-- Embeds Go `burndownAwsjf`: uncapped pass in `awsjfOrder`. -/
def burndownAwsjf (day : Nat) (ts : List Ticket) : List Ticket :=
  (burnOrder day (fun hoursleft => hoursleft) (awsjfOrder day ts) ts workhoursday).1

/-- The five scheduling strategies registered by Go `NewSimulationset`. -/
inductive Policy
  | maxWip
  | oldestFirst
  | sjf
  | osjf
  | awsjf
  deriving Repr, DecidableEq

/-- Dispatches a policy to its daily burn-down step (Go stores the
corresponding function pointer in the `simulation` struct). -/
def policyStep : Policy → Nat → List Ticket → List Ticket
  | .maxWip => burndownMaxWip
  | .oldestFirst => burndownOldestFirst
  | .sjf => burndownSjf
  | .osjf => burndownOsjf
  | .awsjf => burndownAwsjf

/-- The guard of Go `main`'s day loop around `simset.burndown(d)`:
burn-down runs on day `d` only when `d < days-1`. -/
def driverBurns (days d : Nat) : Bool :=
  decide (d < days - 1)

/-- Embeds Go `main`'s day loop for one policy, with the random arrival stream
abstracted as `arr : Nat → List Int` (the efforts of the tickets created on
each day, as drawn by `createTicketsForDay`): iteration `d` appends the new
tickets `NewTicket d effort days` and then, only when `driverBurns days d`,
runs the policy's burn-down for day `d`.  `runAux p days arr d` is the
population after iterations `0 .. d-1`. -/
def runAux (p : Policy) (days : Nat) (arr : Nat → List Int) : Nat → List Ticket
  | 0 => []
  | d + 1 =>
      let ts := runAux p days arr d ++ (arr d).map (fun e => NewTicket d e days)
      if driverBurns days d then policyStep p d ts else ts

/-- The final population of one policy's simulation after all `days`
iterations of Go `main`'s loop. -/
def runSim (p : Policy) (days : Nat) (arr : Nat → List Int) : List Ticket :=
  runAux p days arr days

/-- Frame of one `burndownhours` call: `startday`, `effort` and the length of
`remaining` are untouched, and every `remaining` slot other than `day + 1`
keeps its value. -/
theorem burndownhours_frame (t : Ticket) (day : Nat) (hl hours : Int) :
    (burndownhours t day hl hours).1.startday = t.startday
      ∧ (burndownhours t day hl hours).1.effort = t.effort
      ∧ (burndownhours t day hl hours).1.remaining.length = t.remaining.length
      ∧ ∀ k, k ≠ day + 1 →
          (burndownhours t day hl hours).1.remaining.getD k 0 = t.remaining.getD k 0 := by
  simp only [burndownhours]
  split_ifs <;>
    exact ⟨rfl, rfl, by simp, fun k hk => getD_set_ne (by omega)⟩

/-- One `burndownhours` call with nonnegative capacity and offer returns a
capacity that is no larger and still nonnegative. -/
theorem burndownhours_hl_bounds (t : Ticket) (day : Nat) (hl hours : Int)
    (hhl : 0 ≤ hl) (hhr : 0 ≤ hours) :
    (burndownhours t day hl hours).2 ≤ hl ∧ 0 ≤ (burndownhours t day hl hours).2 := by
  simp only [burndownhours]
  split_ifs <;> constructor <;> omega

/-- One `burndownhours` call decrements the `day+1` slot relative to the `day`
slot by exactly the capacity it consumes. -/
theorem burndownhours_drop (t : Ticket) (day : Nat) (hl hours : Int)
    (hlen : day + 1 < t.remaining.length) :
    t.remaining.getD day 0 - (burndownhours t day hl hours).1.remaining.getD (day + 1) 0
      = hl - (burndownhours t day hl hours).2 := by
  simp only [burndownhours]
  split_ifs <;> rw [getD_set_self hlen] <;> omega

/-- One `burndownhours` call writes at most the day's remaining effort into
slot `day+1`, and exactly carries it forward when it is not positive. -/
theorem burndownhours_write_le (t : Ticket) (day : Nat) (hl hours : Int)
    (hlen : day + 1 < t.remaining.length) (hhl : 0 ≤ hl) (hhr : 0 ≤ hours) :
    (burndownhours t day hl hours).1.remaining.getD (day + 1) 0 ≤ t.remaining.getD day 0
      ∧ (t.remaining.getD day 0 ≤ 0 →
          (burndownhours t day hl hours).1.remaining.getD (day + 1) 0
            = t.remaining.getD day 0) := by
  simp only [burndownhours]
  split_ifs <;> rw [getD_set_self hlen] <;> constructor <;> omega

/-- When the whole current capacity is offered (`hours = hoursleft`) and some
capacity survives the call, the ticket's `day+1` slot has been burned to 0. -/
theorem burndownhours_fullburn (t : Ticket) (day : Nat) (hl : Int)
    (hlen : day + 1 < t.remaining.length) (hrem : 0 ≤ t.remaining.getD day 0)
    (hpos : 0 < (burndownhours t day hl hl).2) :
    (burndownhours t day hl hl).1.remaining.getD (day + 1) 0 = 0 := by
  revert hpos
  simp only [burndownhours]
  split_ifs <;> intro hpos <;> rw [getD_set_self hlen] <;> omega

/-- A burn pass never changes the population's length. -/
theorem burnOrder_length (day : Nat) (offer : Int → Int) (σ : List Nat)
    (ts : List Ticket) (hl : Int) :
    (burnOrder day offer σ ts hl).1.length = ts.length := by
  induction σ generalizing ts hl with
  | nil => rfl
  | cons i is ih =>
      simp only [burnOrder]
      rw [ih]
      simp

/-- A burn pass leaves positions outside the processed index list untouched. -/
theorem burnOrder_untouched (day : Nat) (offer : Int → Int) (σ : List Nat)
    (ts : List Ticket) (hl : Int) (j : Nat) (hj : ¬ j ∈ σ) :
    (burnOrder day offer σ ts hl).1.getD j default = ts.getD j default := by
  induction σ generalizing ts hl with
  | nil => rfl
  | cons i is ih =>
      simp only [burnOrder]
      rw [ih _ _ (fun h => hj (List.mem_cons_of_mem _ h))]
      exact getD_set_ne (fun h => hj (by rw [← h]; exact List.mem_cons_self i is))

/-- Frame of a whole burn pass: at every position, `startday`, `effort`, the
`remaining` length, and every `remaining` slot other than `day + 1` are
untouched. -/
theorem burnOrder_frame (day : Nat) (offer : Int → Int) (σ : List Nat)
    (ts : List Ticket) (hl : Int) (j : Nat) :
    ((burnOrder day offer σ ts hl).1.getD j default).startday = (ts.getD j default).startday
      ∧ ((burnOrder day offer σ ts hl).1.getD j default).effort = (ts.getD j default).effort
      ∧ ((burnOrder day offer σ ts hl).1.getD j default).remaining.length
          = (ts.getD j default).remaining.length
      ∧ ∀ k, k ≠ day + 1 →
          ((burnOrder day offer σ ts hl).1.getD j default).remaining.getD k 0
            = (ts.getD j default).remaining.getD k 0 := by
  induction σ generalizing ts hl with
  | nil => exact ⟨rfl, rfl, rfl, fun k hk => rfl⟩
  | cons i is ih =>
      simp only [burnOrder]
      have hmid :
          ((ts.set i (burndownhours (ts.getD i default) day hl (offer hl)).1).getD j
                default).startday = (ts.getD j default).startday
            ∧ ((ts.set i (burndownhours (ts.getD i default) day hl (offer hl)).1).getD j
                default).effort = (ts.getD j default).effort
            ∧ ((ts.set i (burndownhours (ts.getD i default) day hl (offer hl)).1).getD j
                default).remaining.length = (ts.getD j default).remaining.length
            ∧ ∀ k, k ≠ day + 1 →
              ((ts.set i (burndownhours (ts.getD i default) day hl (offer hl)).1).getD j
                default).remaining.getD k 0 = (ts.getD j default).remaining.getD k 0 := by
        by_cases hi : i < ts.length
        · by_cases hij : i = j
          · subst hij
            rw [getD_set_self hi]
            exact burndownhours_frame (ts.getD i default) day hl (offer hl)
          · rw [getD_set_ne hij]
            exact ⟨rfl, rfl, rfl, fun k hk => rfl⟩
        · rw [getD_set_oob (by omega)]
          exact ⟨rfl, rfl, rfl, fun k hk => rfl⟩
      obtain ⟨h1, h2, h3, h4⟩ := hmid
      obtain ⟨g1, g2, g3, g4⟩ := ih
        (ts.set i (burndownhours (ts.getD i default) day hl (offer hl)).1)
        (burndownhours (ts.getD i default) day hl (offer hl)).2
      exact ⟨g1.trans h1, g2.trans h2, g3.trans h3,
        fun k hk => (g4 k hk).trans (h4 k hk)⟩

/-- The capacity threaded through a burn pass never increases and never
becomes negative, provided the offers are nonnegative. -/
theorem burnOrder_hl_bounds (day : Nat) (offer : Int → Int)
    (hoff : ∀ x : Int, 0 ≤ x → 0 ≤ offer x) (σ : List Nat) (ts : List Ticket)
    (hl : Int) (hhl : 0 ≤ hl) :
    (burnOrder day offer σ ts hl).2 ≤ hl ∧ 0 ≤ (burnOrder day offer σ ts hl).2 := by
  induction σ generalizing ts hl with
  | nil => exact ⟨le_refl hl, hhl⟩
  | cons i is ih =>
      simp only [burnOrder]
      have hb := burndownhours_hl_bounds (ts.getD i default) day hl (offer hl) hhl (hoff hl hhl)
      have hrest := ih (ts.set i (burndownhours (ts.getD i default) day hl (offer hl)).1)
        (burndownhours (ts.getD i default) day hl (offer hl)).2 hb.2
      exact ⟨hrest.1.trans hb.1, hrest.2⟩

/-- One `burndownhours` call spends between 0 and the offered `hours`. -/
theorem burndownhours_spent_bounds (t : Ticket) (day : Nat) (hl hours : Int)
    (hhl : 0 ≤ hl) (hhr : 0 ≤ hours) :
    0 ≤ hl - (burndownhours t day hl hours).2
      ∧ hl - (burndownhours t day hl hours).2 ≤ hours := by
  simp only [burndownhours]
  split_ifs <;> constructor <;> omega

/-- Over a duplicate-free index list of in-range positions, the capacity a burn
pass consumes equals the sum over the processed positions of the drop from the
day-`day` slot (before) to the day-`day+1` slot (after). -/
theorem burnOrder_spend_eq (day : Nat) (offer : Int → Int) (σ : List Nat)
    (ts : List Ticket) (hl : Int)
    (hnd : σ.Nodup) (hin : ∀ i ∈ σ, i < ts.length)
    (hlen : ∀ i ∈ σ, day + 1 < (ts.getD i default).remaining.length) :
    hl - (burnOrder day offer σ ts hl).2
      = (σ.map (fun i => (ts.getD i default).remaining.getD day 0
          - ((burnOrder day offer σ ts hl).1.getD i default).remaining.getD (day + 1) 0)).sum := by
  induction σ generalizing ts hl with
  | nil => simp [burnOrder]
  | cons i is ih =>
      have hi : i < ts.length := hin i (List.mem_cons_self i is)
      have hilen : day + 1 < (ts.getD i default).remaining.length :=
        hlen i (List.mem_cons_self i is)
      have hni : ¬ i ∈ is := (List.nodup_cons.mp hnd).1
      have hnd' : is.Nodup := (List.nodup_cons.mp hnd).2
      have hdrop := burndownhours_drop (ts.getD i default) day hl (offer hl) hilen
      simp only [burnOrder, List.map_cons, List.sum_cons]
      have hunt : (burnOrder day offer is
            (ts.set i (burndownhours (ts.getD i default) day hl (offer hl)).1)
            (burndownhours (ts.getD i default) day hl (offer hl)).2).1.getD i default
          = (burndownhours (ts.getD i default) day hl (offer hl)).1 := by
        rw [burnOrder_untouched day offer is _ _ i hni, getD_set_self hi]
      have hih := ih (ts.set i (burndownhours (ts.getD i default) day hl (offer hl)).1)
        (burndownhours (ts.getD i default) day hl (offer hl)).2 hnd'
        (fun j hj => by
          rw [List.length_set]
          exact hin j (List.mem_cons_of_mem _ hj))
        (fun j hj => by
          rw [getD_set_ne (fun h => hni (by rw [h]; exact hj))]
          exact hlen j (List.mem_cons_of_mem _ hj))
      have hmapeq : is.map (fun j =>
            ((ts.set i (burndownhours (ts.getD i default) day hl (offer hl)).1).getD j
              default).remaining.getD day 0
            - ((burnOrder day offer is
                (ts.set i (burndownhours (ts.getD i default) day hl (offer hl)).1)
                (burndownhours (ts.getD i default) day hl (offer hl)).2).1.getD j
              default).remaining.getD (day + 1) 0)
          = is.map (fun j => (ts.getD j default).remaining.getD day 0
            - ((burnOrder day offer is
                (ts.set i (burndownhours (ts.getD i default) day hl (offer hl)).1)
                (burndownhours (ts.getD i default) day hl (offer hl)).2).1.getD j
              default).remaining.getD (day + 1) 0) := by
        refine List.map_congr_left (fun j hj => ?_)
        rw [getD_set_ne (fun h => hni (by rw [h]; exact hj))]
      rw [hmapeq] at hih
      rw [hunt, ← hih]
      omega

/-- Pointwise effect bound of a burn pass: every processed position's `day+1`
slot receives at most the day's remaining effort, and exactly carries it
forward when it is not positive. -/
theorem burnOrder_write_le (day : Nat) (offer : Int → Int)
    (hoff : ∀ x : Int, 0 ≤ x → 0 ≤ offer x) (σ : List Nat) (ts : List Ticket)
    (hl : Int) (hhl : 0 ≤ hl)
    (hin : ∀ i ∈ σ, i < ts.length)
    (hlen : ∀ i ∈ σ, day + 1 < (ts.getD i default).remaining.length) :
    ∀ j ∈ σ, ((burnOrder day offer σ ts hl).1.getD j default).remaining.getD (day + 1) 0
        ≤ (ts.getD j default).remaining.getD day 0
      ∧ ((ts.getD j default).remaining.getD day 0 ≤ 0 →
          ((burnOrder day offer σ ts hl).1.getD j default).remaining.getD (day + 1) 0
            = (ts.getD j default).remaining.getD day 0) := by
  induction σ generalizing ts hl with
  | nil => intro j hj; cases hj
  | cons i is ih =>
      intro j hj
      have hi : i < ts.length := hin i (List.mem_cons_self i is)
      have hilen : day + 1 < (ts.getD i default).remaining.length :=
        hlen i (List.mem_cons_self i is)
      have hb := burndownhours_hl_bounds (ts.getD i default) day hl (offer hl) hhl (hoff hl hhl)
      simp only [burnOrder]
      have hsetday : ∀ m : Nat,
          ((ts.set i (burndownhours (ts.getD i default) day hl (offer hl)).1).getD m
            default).remaining.getD day 0 = (ts.getD m default).remaining.getD day 0 := by
        intro m
        by_cases him : i = m
        · subst him
          rw [getD_set_self hi]
          exact (burndownhours_frame (ts.getD i default) day hl (offer hl)).2.2.2 day
            (by omega)
        · rw [getD_set_ne him]
      have hsetlen : ∀ m ∈ is,
          day + 1 < ((ts.set i (burndownhours (ts.getD i default) day hl (offer hl)).1).getD m
            default).remaining.length := by
        intro m hm
        by_cases him : i = m
        · subst him
          rw [getD_set_self hi,
            (burndownhours_frame (ts.getD i default) day hl (offer hl)).2.2.1]
          exact hilen
        · rw [getD_set_ne him]
          exact hlen m (List.mem_cons_of_mem _ hm)
      by_cases hjis : j ∈ is
      · have hih := ih (ts.set i (burndownhours (ts.getD i default) day hl (offer hl)).1)
          (burndownhours (ts.getD i default) day hl (offer hl)).2 hb.2
          (fun m hm => by rw [List.length_set]; exact hin m (List.mem_cons_of_mem _ hm))
          hsetlen j hjis
        rw [hsetday j] at hih
        exact hih
      · have hji : j = i := by
          rcases List.mem_cons.mp hj with h | h
          · exact h
          · exact absurd h hjis
        subst hji
        have hunt : (burnOrder day offer is
              (ts.set j (burndownhours (ts.getD j default) day hl (offer hl)).1)
              (burndownhours (ts.getD j default) day hl (offer hl)).2).1.getD j default
            = (burndownhours (ts.getD j default) day hl (offer hl)).1 := by
          rw [burnOrder_untouched day offer is _ _ j hjis, getD_set_self hi]
        rw [hunt]
        exact burndownhours_write_le (ts.getD j default) day hl (offer hl) hilen hhl
          (hoff hl hhl)

/-- If capacity survives an uncapped burn pass (`offer` is the identity), every
processed position whose day-`day` remaining effort was nonnegative ends with 0
in its `day+1` slot. -/
theorem burnOrder_fullburn (day : Nat) (σ : List Nat) (ts : List Ticket) (hl : Int)
    (hhl : 0 ≤ hl)
    (hin : ∀ i ∈ σ, i < ts.length)
    (hlen : ∀ i ∈ σ, day + 1 < (ts.getD i default).remaining.length)
    (hnn : ∀ i ∈ σ, 0 ≤ (ts.getD i default).remaining.getD day 0)
    (hpos : 0 < (burnOrder day (fun x => x) σ ts hl).2) :
    ∀ i ∈ σ, ((burnOrder day (fun x => x) σ ts hl).1.getD i default).remaining.getD (day + 1) 0
        = 0 := by
  induction σ generalizing ts hl with
  | nil => intro i hi; cases hi
  | cons i is ih =>
      intro j hj
      have hi : i < ts.length := hin i (List.mem_cons_self i is)
      have hilen : day + 1 < (ts.getD i default).remaining.length :=
        hlen i (List.mem_cons_self i is)
      have hb := burndownhours_hl_bounds (ts.getD i default) day hl hl hhl hhl
      simp only [burnOrder] at hpos ⊢
      have hsetday : ∀ m : Nat,
          ((ts.set i (burndownhours (ts.getD i default) day hl hl).1).getD m
            default).remaining.getD day 0 = (ts.getD m default).remaining.getD day 0 := by
        intro m
        by_cases him : i = m
        · subst him
          rw [getD_set_self hi]
          exact (burndownhours_frame (ts.getD i default) day hl hl).2.2.2 day (by omega)
        · rw [getD_set_ne him]
      have hsetlen : ∀ m ∈ is,
          day + 1 < ((ts.set i (burndownhours (ts.getD i default) day hl hl).1).getD m
            default).remaining.length := by
        intro m hm
        by_cases him : i = m
        · subst him
          rw [getD_set_self hi, (burndownhours_frame (ts.getD i default) day hl hl).2.2.1]
          exact hilen
        · rw [getD_set_ne him]
          exact hlen m (List.mem_cons_of_mem _ hm)
      by_cases hjis : j ∈ is
      · exact ih (ts.set i (burndownhours (ts.getD i default) day hl hl).1)
          (burndownhours (ts.getD i default) day hl hl).2 hb.2
          (fun m hm => by rw [List.length_set]; exact hin m (List.mem_cons_of_mem _ hm))
          hsetlen
          (fun m hm => by rw [hsetday m]; exact hnn m (List.mem_cons_of_mem _ hm))
          hpos j hjis
      · have hji : j = i := by
          rcases List.mem_cons.mp hj with h | h
          · exact h
          · exact absurd h hjis
        subst hji
        have hunt : (burnOrder day (fun x => x) is
              (ts.set j (burndownhours (ts.getD j default) day hl hl).1)
              (burndownhours (ts.getD j default) day hl hl).2).1.getD j default
            = (burndownhours (ts.getD j default) day hl hl).1 := by
          rw [burnOrder_untouched day (fun x => x) is _ _ j hjis, getD_set_self hi]
        rw [hunt]
        have hrestpos : 0 < (burndownhours (ts.getD j default) day hl hl).2 := by
          have := burnOrder_hl_bounds day (fun x => x) (fun x hx => hx) is
            (ts.set j (burndownhours (ts.getD j default) day hl hl).1)
            (burndownhours (ts.getD j default) day hl hl).2 hb.2
          omega
        exact burndownhours_fullburn (ts.getD j default) day hl hilen
          (hnn j (List.mem_cons_self j is)) hrestpos

/-- Per-position spend cap of a burn pass: when every offer is between 0 and
`c`, each processed position's drop from its day-`day` slot to its final
day-`day+1` slot lies between 0 and `c`. -/
theorem burnOrder_drop_cap (day : Nat) (offer : Int → Int) (c : Int)
    (hoff : ∀ x : Int, 0 ≤ x → 0 ≤ offer x ∧ offer x ≤ c) (σ : List Nat)
    (ts : List Ticket) (hl : Int) (hhl : 0 ≤ hl)
    (hin : ∀ i ∈ σ, i < ts.length)
    (hlen : ∀ i ∈ σ, day + 1 < (ts.getD i default).remaining.length) :
    ∀ j ∈ σ, 0 ≤ (ts.getD j default).remaining.getD day 0
        - ((burnOrder day offer σ ts hl).1.getD j default).remaining.getD (day + 1) 0
      ∧ (ts.getD j default).remaining.getD day 0
        - ((burnOrder day offer σ ts hl).1.getD j default).remaining.getD (day + 1) 0 ≤ c := by
  induction σ generalizing ts hl with
  | nil => intro j hj; cases hj
  | cons i is ih =>
      intro j hj
      have hi : i < ts.length := hin i (List.mem_cons_self i is)
      have hilen : day + 1 < (ts.getD i default).remaining.length :=
        hlen i (List.mem_cons_self i is)
      have hb := burndownhours_hl_bounds (ts.getD i default) day hl (offer hl) hhl
        ((hoff hl hhl).1)
      simp only [burnOrder]
      have hsetday : ∀ m : Nat,
          ((ts.set i (burndownhours (ts.getD i default) day hl (offer hl)).1).getD m
            default).remaining.getD day 0 = (ts.getD m default).remaining.getD day 0 := by
        intro m
        by_cases him : i = m
        · subst him
          rw [getD_set_self hi]
          exact (burndownhours_frame (ts.getD i default) day hl (offer hl)).2.2.2 day
            (by omega)
        · rw [getD_set_ne him]
      have hsetlen : ∀ m ∈ is,
          day + 1 < ((ts.set i (burndownhours (ts.getD i default) day hl (offer hl)).1).getD m
            default).remaining.length := by
        intro m hm
        by_cases him : i = m
        · subst him
          rw [getD_set_self hi,
            (burndownhours_frame (ts.getD i default) day hl (offer hl)).2.2.1]
          exact hilen
        · rw [getD_set_ne him]
          exact hlen m (List.mem_cons_of_mem _ hm)
      by_cases hjis : j ∈ is
      · have hih := ih (ts.set i (burndownhours (ts.getD i default) day hl (offer hl)).1)
          (burndownhours (ts.getD i default) day hl (offer hl)).2 hb.2
          (fun m hm => by rw [List.length_set]; exact hin m (List.mem_cons_of_mem _ hm))
          hsetlen j hjis
        rw [hsetday j] at hih
        exact hih
      · have hji : j = i := by
          rcases List.mem_cons.mp hj with h | h
          · exact h
          · exact absurd h hjis
        subst hji
        have hunt : (burnOrder day offer is
              (ts.set j (burndownhours (ts.getD j default) day hl (offer hl)).1)
              (burndownhours (ts.getD j default) day hl (offer hl)).2).1.getD j default
            = (burndownhours (ts.getD j default) day hl (offer hl)).1 := by
          rw [burnOrder_untouched day offer is _ _ j hjis, getD_set_self hi]
        rw [hunt]
        have hdrop := burndownhours_drop (ts.getD j default) day hl (offer hl) hilen
        have hsb := burndownhours_spent_bounds (ts.getD j default) day hl (offer hl) hhl
          ((hoff hl hhl).1)
        have hoc := (hoff hl hhl).2
        constructor <;> omega

/-- Total hours of work actually performed on `day`: over all population
positions, the drop from the day-`day` slot (before the step) to the
day-`day+1` slot (after the step). -/
def daySpend (day : Nat) (before after : List Ticket) : Int :=
  ((List.range before.length).map (fun j =>
    (before.getD j default).remaining.getD day 0
      - (after.getD j default).remaining.getD (day + 1) 0)).sum

/-- Total remaining work across the population for `day`. -/
def totalRemaining (day : Nat) (ts : List Ticket) : Int :=
  ((List.range ts.length).map (fun j => (ts.getD j default).remaining.getD day 0)).sum

/-- Bundled frame of a burn pass: length plus pointwise frame. -/
theorem burnOrder_frame_all (day : Nat) (offer : Int → Int) (σ : List Nat)
    (ts : List Ticket) (hl : Int) (j : Nat) :
    (burnOrder day offer σ ts hl).1.length = ts.length
      ∧ ((burnOrder day offer σ ts hl).1.getD j default).startday
          = (ts.getD j default).startday
      ∧ ((burnOrder day offer σ ts hl).1.getD j default).effort = (ts.getD j default).effort
      ∧ ((burnOrder day offer σ ts hl).1.getD j default).remaining.length
          = (ts.getD j default).remaining.length
      ∧ ∀ k, k ≠ day + 1 →
          ((burnOrder day offer σ ts hl).1.getD j default).remaining.getD k 0
            = (ts.getD j default).remaining.getD k 0 :=
  ⟨burnOrder_length day offer σ ts hl,
    (burnOrder_frame day offer σ ts hl j).1,
    (burnOrder_frame day offer σ ts hl j).2.1,
    (burnOrder_frame day offer σ ts hl j).2.2.1,
    (burnOrder_frame day offer σ ts hl j).2.2.2⟩

/-- Over any permutation of the position range, a burn pass's total drop equals
the capacity it consumed. -/
theorem burnOrder_daySpend (day : Nat) (offer : Int → Int) (σ : List Nat)
    (ts : List Ticket) (hl : Int)
    (hperm : σ.Perm (List.range ts.length))
    (hlen : ∀ j, j < ts.length → day + 1 < (ts.getD j default).remaining.length) :
    daySpend day ts (burnOrder day offer σ ts hl).1
      = hl - (burnOrder day offer σ ts hl).2 := by
  have hnd : σ.Nodup := hperm.nodup_iff.mpr (List.nodup_range ts.length)
  have hin : ∀ i ∈ σ, i < ts.length := fun i hi =>
    List.mem_range.mp (hperm.mem_iff.mp hi)
  have hspend := burnOrder_spend_eq day offer σ ts hl hnd hin
    (fun i hi => hlen i (hin i hi))
  have hsum := (hperm.map (fun i => (ts.getD i default).remaining.getD day 0
      - ((burnOrder day offer σ ts hl).1.getD i default).remaining.getD (day + 1) 0)).sum_eq
  unfold daySpend
  omega

/-- Frame of every policy's daily step: population length and, position by
position, `startday`, `effort`, the `remaining` length and every `remaining`
slot other than `day + 1` are untouched. -/
theorem policyStep_frame_all (p : Policy) (day : Nat) (ts : List Ticket) (j : Nat) :
    (policyStep p day ts).length = ts.length
      ∧ ((policyStep p day ts).getD j default).startday = (ts.getD j default).startday
      ∧ ((policyStep p day ts).getD j default).effort = (ts.getD j default).effort
      ∧ ((policyStep p day ts).getD j default).remaining.length
          = (ts.getD j default).remaining.length
      ∧ ∀ k, k ≠ day + 1 →
          ((policyStep p day ts).getD j default).remaining.getD k 0
            = (ts.getD j default).remaining.getD k 0 := by
  cases p with
  | maxWip =>
      simp only [policyStep, burndownMaxWip, maxWipPass1]
      split_ifs with h1
      · obtain ⟨l1, s1, e1, r1, k1⟩ :=
          burnOrder_frame_all day (fun _ => 2) (List.range ts.length) ts workhoursday j
        obtain ⟨l2, s2, e2, r2, k2⟩ :=
          burnOrder_frame_all day (fun hoursleft => hoursleft) (List.range ts.length)
            (burnOrder day (fun _ => 2) (List.range ts.length) ts workhoursday).1
            (burnOrder day (fun _ => 2) (List.range ts.length) ts workhoursday).2 j
        exact ⟨l2.trans l1, s2.trans s1, e2.trans e1, r2.trans r1,
          fun k hk => (k2 k hk).trans (k1 k hk)⟩
      · exact burnOrder_frame_all day (fun _ => 2) (List.range ts.length) ts workhoursday j
  | oldestFirst =>
      exact burnOrder_frame_all day (fun hoursleft => hoursleft) (List.range ts.length) ts
        workhoursday j
  | sjf =>
      exact burnOrder_frame_all day (fun hoursleft => hoursleft) (sjfOrder day ts) ts
        workhoursday j
  | osjf =>
      exact burnOrder_frame_all day (fun hoursleft => hoursleft) (osjfOrder day ts) ts
        workhoursday j
  | awsjf =>
      exact burnOrder_frame_all day (fun hoursleft => hoursleft) (awsjfOrder day ts) ts
        workhoursday j

/-- C10: no policy's daily step reorders the population.  The sorting policies
sort a fresh copy of the index slice, so after any step the population keeps
its length and, position by position, its `startday` and `effort`; only the
`remaining` trajectory (slot `day + 1`), `endday` and `leadtime` can change. -/
theorem policyStep_preserves_population (p : Policy) (day : Nat) (ts : List Ticket) (j : Nat) :
    (policyStep p day ts).length = ts.length
      ∧ ((policyStep p day ts).getD j default).startday = (ts.getD j default).startday
      ∧ ((policyStep p day ts).getD j default).effort = (ts.getD j default).effort
      ∧ ((policyStep p day ts).getD j default).remaining.length
          = (ts.getD j default).remaining.length
      ∧ ∀ k, k ≠ day + 1 →
          ((policyStep p day ts).getD j default).remaining.getD k 0
            = (ts.getD j default).remaining.getD k 0 :=
  policyStep_frame_all p day ts j

/-- Witness for `policyStep_preserves_population` at a concrete population. -/
theorem policyStep_preserves_population_witness :
    (policyStep Policy.sjf 0 [NewTicket 0 5 3, NewTicket 0 2 3]).length = 2
      ∧ ((policyStep Policy.sjf 0 [NewTicket 0 5 3, NewTicket 0 2 3]).getD 0
          default).startday = 0
      ∧ ((policyStep Policy.sjf 0 [NewTicket 0 5 3, NewTicket 0 2 3]).getD 0
          default).effort = 5
      ∧ ((policyStep Policy.sjf 0 [NewTicket 0 5 3, NewTicket 0 2 3]).getD 0
          default).remaining.getD 0 0 = 5 := by
  obtain ⟨h1, h2, h3, h4, h5⟩ :=
    policyStep_preserves_population Policy.sjf 0 [NewTicket 0 5 3, NewTicket 0 2 3] 0
  refine ⟨?_, ?_, ?_, ?_⟩
  · rw [h1]; decide
  · rw [h2]; decide
  · rw [h3]; decide
  · rw [h5 0 (by decide)]; decide

/-- C4: for every one of the five policies and any day, the total hours worked
across the population that day is at most the daily capacity `workhoursday`
(= 8); and the capacity value threaded through successive `burndownhours`
calls never increases and never becomes negative. -/
theorem policy_total_spend_le_capacity :
    (∀ (p : Policy) (day : Nat) (ts : List Ticket),
        (∀ j, j < ts.length → day + 1 < (ts.getD j default).remaining.length) →
        daySpend day ts (policyStep p day ts) ≤ workhoursday)
      ∧ (∀ (t : Ticket) (day : Nat) (hoursleft hours : Int),
          0 ≤ hoursleft → 0 ≤ hours →
          (burndownhours t day hoursleft hours).2 ≤ hoursleft
            ∧ 0 ≤ (burndownhours t day hoursleft hours).2) := by
  constructor
  · intro p day ts hlen
    have hwh : (0 : Int) ≤ workhoursday := by decide
    cases p with
    | maxWip =>
        simp only [policyStep, burndownMaxWip, maxWipPass1]
        have hb1 := burnOrder_hl_bounds day (fun _ => 2) (fun x hx => by norm_num)
          (List.range ts.length) ts workhoursday hwh
        split_ifs with h1
        · have hlen1 : ∀ j, j < (burnOrder day (fun _ => 2) (List.range ts.length) ts
              workhoursday).1.length →
              day + 1 < ((burnOrder day (fun _ => 2) (List.range ts.length) ts
                workhoursday).1.getD j default).remaining.length := by
            intro j hj
            rw [(burnOrder_frame day (fun _ => 2) (List.range ts.length) ts workhoursday
              j).2.2.1]
            exact hlen j (by rw [← burnOrder_length day (fun _ => 2) (List.range ts.length)
              ts workhoursday]; exact hj)
          have hperm1 : (List.range ts.length).Perm
              (List.range (burnOrder day (fun _ => 2) (List.range ts.length) ts
                workhoursday).1.length) := by
            rw [burnOrder_length day (fun _ => 2) (List.range ts.length) ts workhoursday]
          have hds2 := burnOrder_daySpend day (fun hoursleft => hoursleft)
            (List.range ts.length)
            (burnOrder day (fun _ => 2) (List.range ts.length) ts workhoursday).1
            (burnOrder day (fun _ => 2) (List.range ts.length) ts workhoursday).2
            hperm1 hlen1
          have hb2 := burnOrder_hl_bounds day (fun hoursleft => hoursleft) (fun x hx => hx)
            (List.range ts.length)
            (burnOrder day (fun _ => 2) (List.range ts.length) ts workhoursday).1
            (burnOrder day (fun _ => 2) (List.range ts.length) ts workhoursday).2
            (le_of_lt h1)
          have hspendeq : daySpend day ts
              (burnOrder day (fun hoursleft => hoursleft) (List.range ts.length)
                (burnOrder day (fun _ => 2) (List.range ts.length) ts workhoursday).1
                (burnOrder day (fun _ => 2) (List.range ts.length) ts workhoursday).2).1
              = daySpend day
                (burnOrder day (fun _ => 2) (List.range ts.length) ts workhoursday).1
                (burnOrder day (fun hoursleft => hoursleft) (List.range ts.length)
                  (burnOrder day (fun _ => 2) (List.range ts.length) ts workhoursday).1
                  (burnOrder day (fun _ => 2) (List.range ts.length) ts workhoursday).2).1 := by
            unfold daySpend
            rw [burnOrder_length day (fun _ => 2) (List.range ts.length) ts workhoursday]
            refine congrArg List.sum (List.map_congr_left (fun j hj => ?_))
            rw [(burnOrder_frame day (fun _ => 2) (List.range ts.length) ts workhoursday
              j).2.2.2 day (by omega)]
          rw [hspendeq, hds2]
          omega
        · rw [burnOrder_daySpend day (fun _ => 2) (List.range ts.length) ts workhoursday
            (List.Perm.refl _) hlen]
          omega
    | oldestFirst =>
        simp only [policyStep, burndownOldestFirst]
        rw [burnOrder_daySpend day (fun hoursleft => hoursleft) (List.range ts.length) ts
          workhoursday (List.Perm.refl _) hlen]
        have hb := burnOrder_hl_bounds day (fun hoursleft => hoursleft) (fun x hx => hx)
          (List.range ts.length) ts workhoursday hwh
        omega
    | sjf =>
        simp only [policyStep, burndownSjf]
        have hperm : (sjfOrder day ts).Perm (List.range ts.length) := by
          unfold sjfOrder
          exact sortSliceGo_perm _ _
        rw [burnOrder_daySpend day (fun hoursleft => hoursleft) (sjfOrder day ts) ts
          workhoursday hperm hlen]
        have hb := burnOrder_hl_bounds day (fun hoursleft => hoursleft) (fun x hx => hx)
          (sjfOrder day ts) ts workhoursday hwh
        omega
    | osjf =>
        simp only [policyStep, burndownOsjf]
        have hperm : (osjfOrder day ts).Perm (List.range ts.length) := by
          unfold osjfOrder
          exact sortSliceGo_perm _ _
        rw [burnOrder_daySpend day (fun hoursleft => hoursleft) (osjfOrder day ts) ts
          workhoursday hperm hlen]
        have hb := burnOrder_hl_bounds day (fun hoursleft => hoursleft) (fun x hx => hx)
          (osjfOrder day ts) ts workhoursday hwh
        omega
    | awsjf =>
        simp only [policyStep, burndownAwsjf]
        have hperm : (awsjfOrder day ts).Perm (List.range ts.length) := by
          unfold awsjfOrder
          exact sortSliceGo_perm _ _
        rw [burnOrder_daySpend day (fun hoursleft => hoursleft) (awsjfOrder day ts) ts
          workhoursday hperm hlen]
        have hb := burnOrder_hl_bounds day (fun hoursleft => hoursleft) (fun x hx => hx)
          (awsjfOrder day ts) ts workhoursday hwh
        omega
  · intro t day hoursleft hours hhl hhr
    exact burndownhours_hl_bounds t day hoursleft hours hhl hhr

/-- Witness for `policy_total_spend_le_capacity` at a concrete population. -/
theorem policy_total_spend_le_capacity_witness :
    daySpend 0 [NewTicket 0 5 3] (policyStep Policy.maxWip 0 [NewTicket 0 5 3])
        ≤ workhoursday
      ∧ (burndownhours (NewTicket 0 5 3) 0 8 2).2 ≤ 8
      ∧ 0 ≤ (burndownhours (NewTicket 0 5 3) 0 8 2).2 :=
  ⟨policy_total_spend_le_capacity.1 Policy.maxWip 0 [NewTicket 0 5 3]
      (fun j hj => by
        have hj1 : j < 1 := by simpa using hj
        have hj0 : j = 0 := by omega
        subst hj0
        decide),
    (policy_total_spend_le_capacity.2 (NewTicket 0 5 3) 0 8 2 (by decide) (by decide)).1,
    (policy_total_spend_le_capacity.2 (NewTicket 0 5 3) 0 8 2 (by decide) (by decide)).2⟩

/-- Dichotomy of one uncapped burn pass over any permutation of the position
range: either the full capacity is consumed, or the day's total remaining work
was below capacity and every position's `day+1` slot ends at 0. -/
theorem uncapped_pass_dichotomy (day : Nat) (σ : List Nat) (ts : List Ticket)
    (hperm : σ.Perm (List.range ts.length))
    (hlen : ∀ j, j < ts.length → day + 1 < (ts.getD j default).remaining.length)
    (hnn : ∀ j, j < ts.length → 0 ≤ (ts.getD j default).remaining.getD day 0) :
    daySpend day ts (burnOrder day (fun hoursleft => hoursleft) σ ts workhoursday).1
        = workhoursday
      ∨ (totalRemaining day ts < workhoursday
          ∧ ∀ j, j < ts.length →
              ((burnOrder day (fun hoursleft => hoursleft) σ ts
                workhoursday).1.getD j default).remaining.getD (day + 1) 0 = 0) := by
  have hwh : (0 : Int) ≤ workhoursday := by decide
  have hds := burnOrder_daySpend day (fun hoursleft => hoursleft) σ ts workhoursday hperm hlen
  have hb := burnOrder_hl_bounds day (fun hoursleft => hoursleft) (fun x hx => hx) σ ts
    workhoursday hwh
  by_cases hf : 0 < (burnOrder day (fun hoursleft => hoursleft) σ ts workhoursday).2
  · right
    have hin : ∀ i ∈ σ, i < ts.length := fun i hi => List.mem_range.mp (hperm.mem_iff.mp hi)
    have hzero := burnOrder_fullburn day σ ts workhoursday hwh hin
      (fun i hi => hlen i (hin i hi)) (fun i hi => hnn i (hin i hi)) hf
    have hall : ∀ j, j < ts.length →
        ((burnOrder day (fun hoursleft => hoursleft) σ ts
          workhoursday).1.getD j default).remaining.getD (day + 1) 0 = 0 := by
      intro j hj
      exact hzero j (hperm.mem_iff.mpr (List.mem_range.mpr hj))
    refine ⟨?_, hall⟩
    have heq : totalRemaining day ts
        = daySpend day ts (burnOrder day (fun hoursleft => hoursleft) σ ts
            workhoursday).1 := by
      unfold totalRemaining daySpend
      refine congrArg List.sum (List.map_congr_left (fun j hj => ?_))
      rw [hall j (List.mem_range.mp hj)]
      omega
    omega
  · left
    omega

/-- C5: for each of the four single-pass policies, on any day either the full
daily capacity of 8 hours is consumed, or the total remaining work across the
population that day is below capacity — and then every ticket's remaining
effort reaches 0 for that day (its `day+1` slot is written 0). -/
theorem single_pass_capacity_dichotomy (p : Policy) (day : Nat) (ts : List Ticket)
    (hp : p = Policy.oldestFirst ∨ p = Policy.sjf ∨ p = Policy.osjf ∨ p = Policy.awsjf)
    (hlen : ∀ j, j < ts.length → day + 1 < (ts.getD j default).remaining.length)
    (hnn : ∀ j, j < ts.length → 0 ≤ (ts.getD j default).remaining.getD day 0) :
    daySpend day ts (policyStep p day ts) = workhoursday
      ∨ (totalRemaining day ts < workhoursday
          ∧ ∀ j, j < ts.length →
              ((policyStep p day ts).getD j default).remaining.getD (day + 1) 0 = 0) := by
  rcases hp with h | h | h | h <;> subst h
  · simp only [policyStep, burndownOldestFirst]
    exact uncapped_pass_dichotomy day (List.range ts.length) ts (List.Perm.refl _) hlen hnn
  · simp only [policyStep, burndownSjf]
    exact uncapped_pass_dichotomy day (sjfOrder day ts) ts
      (by unfold sjfOrder; exact sortSliceGo_perm _ _) hlen hnn
  · simp only [policyStep, burndownOsjf]
    exact uncapped_pass_dichotomy day (osjfOrder day ts) ts
      (by unfold osjfOrder; exact sortSliceGo_perm _ _) hlen hnn
  · simp only [policyStep, burndownAwsjf]
    exact uncapped_pass_dichotomy day (awsjfOrder day ts) ts
      (by unfold awsjfOrder; exact sortSliceGo_perm _ _) hlen hnn

/-- Witness for `single_pass_capacity_dichotomy` at a concrete population. -/
theorem single_pass_capacity_dichotomy_witness :
    daySpend 0 [NewTicket 0 5 3] (policyStep Policy.oldestFirst 0 [NewTicket 0 5 3])
        = workhoursday
      ∨ (totalRemaining 0 [NewTicket 0 5 3] < workhoursday
          ∧ ∀ j, j < [NewTicket 0 5 3].length →
              ((policyStep Policy.oldestFirst 0 [NewTicket 0 5 3]).getD j
                default).remaining.getD (0 + 1) 0 = 0) :=
  single_pass_capacity_dichotomy Policy.oldestFirst 0 [NewTicket 0 5 3] (Or.inl rfl)
    (fun j hj => by
      have hj1 : j < 1 := by simpa using hj
      have hj0 : j = 0 := by omega
      subst hj0
      decide)
    (fun j hj => by
      have hj1 : j < 1 := by simpa using hj
      have hj0 : j = 0 := by omega
      subst hj0
      decide)

/-- C7: in the Equal-working policy, (i) during the first pass every ticket's
drop for the day is between 0 and the per-ticket cap of `hourswork = 2`;
(ii) the second pass runs exactly when capacity is left over after the first
pass (otherwise the day's result is the first pass's output); and (iii) only
the second pass may exceed the cap — concretely, a lone ticket of effort 5
drops by 5 > 2 on one day once the leftover-capacity pass has run. -/
theorem maxwip_first_pass_cap (day : Nat) (ts : List Ticket)
    (hlen : ∀ j, j < ts.length → day + 1 < (ts.getD j default).remaining.length) :
    (∀ j, j < ts.length →
        0 ≤ (ts.getD j default).remaining.getD day 0
            - ((maxWipPass1 day ts).1.getD j default).remaining.getD (day + 1) 0
          ∧ (ts.getD j default).remaining.getD day 0
            - ((maxWipPass1 day ts).1.getD j default).remaining.getD (day + 1) 0 ≤ 2)
      ∧ ((maxWipPass1 day ts).2 ≤ 0 → burndownMaxWip day ts = (maxWipPass1 day ts).1)
      ∧ (0 < (maxWipPass1 day ts).2 → burndownMaxWip day ts
          = (burnOrder day (fun hoursleft => hoursleft) (List.range ts.length)
              (maxWipPass1 day ts).1 (maxWipPass1 day ts).2).1)
      ∧ (NewTicket 0 5 3).remaining.getD 0 0
          - ((burndownMaxWip 0 [NewTicket 0 5 3]).getD 0 default).remaining.getD 1 0
          = 5 := by
  refine ⟨?_, ?_, ?_, by decide⟩
  · intro j hj
    unfold maxWipPass1
    exact burnOrder_drop_cap day (fun _ => 2) 2 (fun x hx => by norm_num)
      (List.range ts.length) ts workhoursday (by decide)
      (fun i hi => List.mem_range.mp hi)
      (fun i hi => hlen i (List.mem_range.mp hi)) j (List.mem_range.mpr hj)
  · intro h
    unfold burndownMaxWip
    rw [if_neg (by omega)]
  · intro h
    unfold burndownMaxWip
    rw [if_pos h]

/-- Witness for `maxwip_first_pass_cap` at a concrete population. -/
theorem maxwip_first_pass_cap_witness :
    0 ≤ ([NewTicket 0 5 3].getD 0 default).remaining.getD 0 0
        - ((maxWipPass1 0 [NewTicket 0 5 3]).1.getD 0 default).remaining.getD (0 + 1) 0
      ∧ ([NewTicket 0 5 3].getD 0 default).remaining.getD 0 0
        - ((maxWipPass1 0 [NewTicket 0 5 3]).1.getD 0 default).remaining.getD (0 + 1) 0
        ≤ 2 := by
  refine (maxwip_first_pass_cap 0 [NewTicket 0 5 3] (fun j hj => ?_)).1 0 (by decide)
  have hj1 : j < 1 := by simpa using hj
  have hj0 : j = 0 := by omega
  subst hj0
  decide

/-- C3: whenever `day + 1` is inside the horizon, `burndownhours` writes the
(decremented or unchanged) remaining effort into slot `day+1` — the slot always
receives the day's remaining effort minus the capacity consumed, which is the
unchanged remaining effort whenever no work happened (zero remaining or no
capacity) — and the driver's guard `driverBurns` invokes the burn-down step
only on days `d` with `d + 1 < days`, so the final simulated day never burns
and no write past the horizon occurs. -/
theorem carry_forward_and_driver_guard :
    (∀ (t : Ticket) (day : Nat) (hoursleft hours : Int),
        day + 1 < t.remaining.length →
        (burndownhours t day hoursleft hours).1.remaining.getD (day + 1) 0
            = t.remaining.getD day 0
              - (hoursleft - (burndownhours t day hoursleft hours).2)
          ∧ ((t.remaining.getD day 0 ≤ 0 ∨ hoursleft ≤ 0) →
              (burndownhours t day hoursleft hours).1.remaining.getD (day + 1) 0
                = t.remaining.getD day 0))
      ∧ ∀ (days d : Nat), driverBurns days d = true → d + 1 < days := by
  constructor
  · intro t day hoursleft hours hlen
    have hd := burndownhours_drop t day hoursleft hours hlen
    constructor
    · omega
    · intro hc
      have h2 : (burndownhours t day hoursleft hours).2 = hoursleft := by
        simp only [burndownhours]
        split_ifs <;>
          first
          | rfl
          | (exfalso; rcases hc with hc | hc <;> omega)
      omega
  · intro days d h
    unfold driverBurns at h
    rw [decide_eq_true_eq] at h
    omega

/-- Witness for `carry_forward_and_driver_guard` at concrete inputs. -/
theorem carry_forward_and_driver_guard_witness :
    (burndownhours (NewTicket 0 5 3) 0 0 5).1.remaining.getD (0 + 1) 0
        = (NewTicket 0 5 3).remaining.getD 0 0
          - (0 - (burndownhours (NewTicket 0 5 3) 0 0 5).2)
      ∧ (burndownhours (NewTicket 0 5 3) 0 0 5).1.remaining.getD (0 + 1) 0
          = (NewTicket 0 5 3).remaining.getD 0 0
      ∧ (3 : Nat) + 1 < 5 :=
  ⟨(carry_forward_and_driver_guard.1 (NewTicket 0 5 3) 0 0 5 (by decide)).1,
    (carry_forward_and_driver_guard.1 (NewTicket 0 5 3) 0 0 5 (by decide)).2
      (Or.inr (by decide)),
    carry_forward_and_driver_guard.2 5 3 (by decide)⟩

theorem getD_mem {α : Type _} {l : List α} {j : Nat} {d : α} (h : j < l.length) :
    l.getD j d ∈ l := by
  rw [List.getD_eq_getElem l d h]
  exact List.getElem_mem h

/-- Every policy's daily step writes, at every position, a `day+1` slot that is
at most the day's remaining effort, and exactly carries a non-positive
remaining effort forward. -/
theorem policyStep_write_le (p : Policy) (day : Nat) (ts : List Ticket)
    (hlen : ∀ j, j < ts.length → day + 1 < (ts.getD j default).remaining.length) :
    ∀ j, j < ts.length →
      ((policyStep p day ts).getD j default).remaining.getD (day + 1) 0
          ≤ (ts.getD j default).remaining.getD day 0
        ∧ ((ts.getD j default).remaining.getD day 0 ≤ 0 →
            ((policyStep p day ts).getD j default).remaining.getD (day + 1) 0
              = (ts.getD j default).remaining.getD day 0) := by
  have hwh : (0 : Int) ≤ workhoursday := by decide
  cases p with
  | maxWip =>
      intro j hj
      simp only [policyStep, burndownMaxWip, maxWipPass1]
      have hp1 := burnOrder_write_le day (fun _ => 2) (fun x hx => by norm_num)
        (List.range ts.length) ts workhoursday hwh
        (fun i hi => List.mem_range.mp hi)
        (fun i hi => hlen i (List.mem_range.mp hi)) j (List.mem_range.mpr hj)
      split_ifs with h1
      · have hf := burnOrder_frame day (fun _ => 2) (List.range ts.length) ts workhoursday j
        have hlen1 : ∀ i ∈ List.range ts.length, day + 1
            < ((burnOrder day (fun _ => 2) (List.range ts.length) ts
              workhoursday).1.getD i default).remaining.length := by
          intro i hi
          rw [(burnOrder_frame day (fun _ => 2) (List.range ts.length) ts workhoursday
            i).2.2.1]
          exact hlen i (List.mem_range.mp hi)
        have hp2 := burnOrder_write_le day (fun hoursleft => hoursleft) (fun x hx => hx)
          (List.range ts.length)
          (burnOrder day (fun _ => 2) (List.range ts.length) ts workhoursday).1
          (burnOrder day (fun _ => 2) (List.range ts.length) ts workhoursday).2
          (le_of_lt h1)
          (fun i hi => by
            rw [burnOrder_length day (fun _ => 2) (List.range ts.length) ts workhoursday]
            exact List.mem_range.mp hi)
          hlen1 j (List.mem_range.mpr hj)
        rw [hf.2.2.2 day (by omega)] at hp2
        exact hp2
      · exact hp1
  | oldestFirst =>
      intro j hj
      exact burnOrder_write_le day (fun hoursleft => hoursleft) (fun x hx => hx)
        (List.range ts.length) ts workhoursday hwh
        (fun i hi => List.mem_range.mp hi)
        (fun i hi => hlen i (List.mem_range.mp hi)) j (List.mem_range.mpr hj)
  | sjf =>
      intro j hj
      have hperm : (sjfOrder day ts).Perm (List.range ts.length) := by
        unfold sjfOrder
        exact sortSliceGo_perm _ _
      exact burnOrder_write_le day (fun hoursleft => hoursleft) (fun x hx => hx)
        (sjfOrder day ts) ts workhoursday hwh
        (fun i hi => List.mem_range.mp (hperm.mem_iff.mp hi))
        (fun i hi => hlen i (List.mem_range.mp (hperm.mem_iff.mp hi))) j
        (hperm.mem_iff.mpr (List.mem_range.mpr hj))
  | osjf =>
      intro j hj
      have hperm : (osjfOrder day ts).Perm (List.range ts.length) := by
        unfold osjfOrder
        exact sortSliceGo_perm _ _
      exact burnOrder_write_le day (fun hoursleft => hoursleft) (fun x hx => hx)
        (osjfOrder day ts) ts workhoursday hwh
        (fun i hi => List.mem_range.mp (hperm.mem_iff.mp hi))
        (fun i hi => hlen i (List.mem_range.mp (hperm.mem_iff.mp hi))) j
        (hperm.mem_iff.mpr (List.mem_range.mpr hj))
  | awsjf =>
      intro j hj
      have hperm : (awsjfOrder day ts).Perm (List.range ts.length) := by
        unfold awsjfOrder
        exact sortSliceGo_perm _ _
      exact burnOrder_write_le day (fun hoursleft => hoursleft) (fun x hx => hx)
        (awsjfOrder day ts) ts workhoursday hwh
        (fun i hi => List.mem_range.mp (hperm.mem_iff.mp hi))
        (fun i hi => hlen i (List.mem_range.mp (hperm.mem_iff.mp hi))) j
        (hperm.mem_iff.mpr (List.mem_range.mpr hj))

/-- Run invariant of the driver loop: after `d` iterations, every ticket's
`remaining` array has length `days`, and on every burned day `k` at or after
the ticket's `startday` the trajectory is non-increasing and zero-absorbing
from slot `k` to slot `k+1`. -/
theorem runAux_invariant (p : Policy) (days : Nat) (arr : Nat → List Int) (d : Nat) :
    (∀ j, j < (runAux p days arr d).length →
        ((runAux p days arr d).getD j default).remaining.length = days)
      ∧ (∀ j, j < (runAux p days arr d).length →
          ∀ k, ((runAux p days arr d).getD j default).startday ≤ k → k < d →
            k + 1 < days →
            ((runAux p days arr d).getD j default).remaining.getD (k + 1) 0
                ≤ ((runAux p days arr d).getD j default).remaining.getD k 0
              ∧ (((runAux p days arr d).getD j default).remaining.getD k 0 = 0 →
                  ((runAux p days arr d).getD j default).remaining.getD (k + 1) 0 = 0)) := by
  induction d with
  | zero =>
      constructor <;> intro j hj <;> simp [runAux] at hj
  | succ d ih =>
      have hnewlen : ∀ m, m < ((arr d).map (fun e => NewTicket d e days)).length →
          ((((arr d).map (fun e => NewTicket d e days)).getD m default).remaining.length
              = days)
            ∧ (((arr d).map (fun e => NewTicket d e days)).getD m default).startday = d := by
        intro m hm
        obtain ⟨e, he, heq⟩ := List.mem_map.mp (getD_mem hm)
        rw [← heq]
        constructor
        · simp [NewTicket]
        · rfl
      have halen : ∀ j,
          j < (runAux p days arr d ++ (arr d).map (fun e => NewTicket d e days)).length →
          (((runAux p days arr d ++ (arr d).map (fun e => NewTicket d e days)).getD j
            default).remaining.length = days) := by
        intro j hj
        by_cases hjo : j < (runAux p days arr d).length
        · rw [List.getD_append _ _ _ _ hjo]
          exact ih.1 j hjo
        · rw [List.getD_append_right _ _ _ _ (by omega)]
          refine (hnewlen (j - (runAux p days arr d).length) ?_).1
          rw [List.length_append] at hj
          omega
      have happ3 : ∀ j,
          j < (runAux p days arr d ++ (arr d).map (fun e => NewTicket d e days)).length →
          ∀ k, (((runAux p days arr d ++ (arr d).map (fun e => NewTicket d e days)).getD j
              default).startday ≤ k) → k < d → k + 1 < days →
            ((runAux p days arr d ++ (arr d).map (fun e => NewTicket d e days)).getD j
                default).remaining.getD (k + 1) 0
              ≤ ((runAux p days arr d ++ (arr d).map (fun e => NewTicket d e days)).getD j
                default).remaining.getD k 0
            ∧ (((runAux p days arr d ++ (arr d).map (fun e => NewTicket d e days)).getD j
                default).remaining.getD k 0 = 0 →
              ((runAux p days arr d ++ (arr d).map (fun e => NewTicket d e days)).getD j
                default).remaining.getD (k + 1) 0 = 0) := by
        intro j hj k hks hkd hkdays
        by_cases hjo : j < (runAux p days arr d).length
        · rw [List.getD_append _ _ _ _ hjo] at hks ⊢
          exact ih.2 j hjo k hks hkd hkdays
        · rw [List.getD_append_right _ _ _ _ (by omega)] at hks
          have hsd := (hnewlen (j - (runAux p days arr d).length)
            (by rw [List.length_append] at hj; omega)).2
          rw [hsd] at hks
          omega
      have hunfold : runAux p days arr (d + 1)
          = if driverBurns days d then
              policyStep p d (runAux p days arr d ++ (arr d).map (fun e => NewTicket d e days))
            else runAux p days arr d ++ (arr d).map (fun e => NewTicket d e days) := rfl
      rw [hunfold]
      by_cases hb : driverBurns days d = true
      · rw [if_pos hb]
        have hlt : d < days - 1 := by simpa [driverBurns] using hb
        have hd1 : d + 1 < days := by omega
        have hlenapp : ∀ j,
            j < (runAux p days arr d ++ (arr d).map (fun e => NewTicket d e days)).length →
            d + 1 < (((runAux p days arr d ++ (arr d).map (fun e => NewTicket d e days)).getD
              j default).remaining.length) := by
          intro j hj
          rw [halen j hj]
          exact hd1
        have hwle := policyStep_write_le p d
          (runAux p days arr d ++ (arr d).map (fun e => NewTicket d e days)) hlenapp
        constructor
        · intro j hj
          have hframe := policyStep_frame_all p d
            (runAux p days arr d ++ (arr d).map (fun e => NewTicket d e days)) j
          rw [hframe.2.2.2.1]
          refine halen j ?_
          rw [← hframe.1]
          exact hj
        · intro j hj k hks hkd hkdays
          have hframe := policyStep_frame_all p d
            (runAux p days arr d ++ (arr d).map (fun e => NewTicket d e days)) j
          have hjapp : j <
              (runAux p days arr d ++ (arr d).map (fun e => NewTicket d e days)).length := by
            rw [← hframe.1]
            exact hj
          rw [hframe.2.1] at hks
          by_cases hkd' : k < d
          · rw [hframe.2.2.2.2 k (by omega), hframe.2.2.2.2 (k + 1) (by omega)]
            exact happ3 j hjapp k hks hkd' hkdays
          · have hkd0 : k = d := by omega
            subst hkd0
            rw [hframe.2.2.2.2 k (by omega)]
            have hw := hwle j hjapp
            exact ⟨hw.1, fun h0 => (hw.2 (le_of_eq h0)).trans h0⟩
      · rw [if_neg hb]
        have hge : ¬ d < days - 1 := by simpa [driverBurns] using hb
        constructor
        · exact halen
        · intro j hj k hks hkd hkdays
          have hkd' : k < d := by omega
          exact happ3 j hj k hks hkd' hkdays

/-- C9 counterexample: a ticket that cannot finish within the horizon.  With
3 simulated days and a single day-0 ticket of effort 100 under Oldest-first,
the final trajectory is `[100, 92, 84]` and `lead_time` has stopped changing at
its final value 2 (no burn runs on the last day) — yet no entry of the
remaining trajectory ever reaches 0, refuting "reaches exactly 0 by the day
the ticket's lead_time stops changing". -/
theorem runSim_remaining_never_reaches_zero :
    (runSim Policy.oldestFirst 3 (fun n => if n = 0 then [100] else [])).length = 1
      ∧ ((runSim Policy.oldestFirst 3 (fun n => if n = 0 then [100] else [])).getD 0
          default).remaining = [100, 92, 84]
      ∧ ((runSim Policy.oldestFirst 3 (fun n => if n = 0 then [100] else [])).getD 0
          default).leadtime = 2
      ∧ ¬ (0 : Int) ∈ ((runSim Policy.oldestFirst 3
          (fun n => if n = 0 then [100] else [])).getD 0 default).remaining := by
  decide

/-- C9 amended: for every ticket, under every policy and every arrival
sequence, the remaining-effort trajectory is non-increasing in day index from
the ticket's start day onward, and once it reaches 0 it stays 0; the claimed
"reaches exactly 0" holds only for tickets that complete within the simulated
horizon. -/
theorem runSim_remaining_monotone (p : Policy) (days : Nat) (arr : Nat → List Int)
    (j : Nat) (hj : j < (runSim p days arr).length) (k : Nat)
    (hks : ((runSim p days arr).getD j default).startday ≤ k)
    (hkd : k + 1 < days) :
    ((runSim p days arr).getD j default).remaining.getD (k + 1) 0
        ≤ ((runSim p days arr).getD j default).remaining.getD k 0
      ∧ (((runSim p days arr).getD j default).remaining.getD k 0 = 0 →
          ((runSim p days arr).getD j default).remaining.getD (k + 1) 0 = 0) :=
  (runAux_invariant p days arr days).2 j hj k hks (by omega) hkd

/-- Witness for `runSim_remaining_monotone` at a concrete run. -/
theorem runSim_remaining_monotone_witness :
    ((runSim Policy.maxWip 3 (fun n => if n = 0 then [4] else [])).getD 0
          default).remaining.getD 1 0
        ≤ ((runSim Policy.maxWip 3 (fun n => if n = 0 then [4] else [])).getD 0
          default).remaining.getD 0 0
      ∧ (((runSim Policy.maxWip 3 (fun n => if n = 0 then [4] else [])).getD 0
          default).remaining.getD 0 0 = 0 →
          ((runSim Policy.maxWip 3 (fun n => if n = 0 then [4] else [])).getD 0
            default).remaining.getD 1 0 = 0) :=
  runSim_remaining_monotone Policy.maxWip 3 (fun n => if n = 0 then [4] else []) 0
    (by decide) 0 (by decide) (by decide)

/-- C6 counterexample: the OSJF comparator is not the claimed lexicographic
"ascending start_day, tie-break ascending remaining".  Take Y (start day 1,
remaining 5 on day 2 — reachable with effort 13 against capacity 8) and X
(start day 2, remaining 1 on day 2, arrival order [Y, X]): although
Y.startday < X.startday, the day-2 processing order is [1, 0], i.e. the
strictly younger X is served before the older Y because its remaining effort
is smaller — the comparator falls through to the remaining comparison whenever
`ti.startday < tj.startday` fails, not only on ties. -/
theorem osjf_not_startday_ordered :
    (Ticket.mk 1 2 1 13 [0, 13, 5, 0]).startday
        < (Ticket.mk 2 0 0 1 [0, 0, 1, 0]).startday
      ∧ osjfOrder 2 [Ticket.mk 1 2 1 13 [0, 13, 5, 0], Ticket.mk 2 0 0 1 [0, 0, 1, 0]]
        = [1, 0] := by
  decide

/-- C6 amended: the OSJF comparator returns `true` whenever
`ti.startday < tj.startday`, and otherwise (also when `ti.startday` is
strictly larger, not only on ties) falls through to comparing the day's
remaining efforts — so a strictly younger ticket with smaller remaining effort
can be served first; in the spec's concrete scenario (A: start 0 effort 5,
B: start 1 effort 3) the day-1 processing order is still A before B. -/
theorem osjf_comparator_behavior :
    (∀ (day : Nat) (ts : List Ticket) (i j : Nat),
        (ts.getD i default).startday < (ts.getD j default).startday →
        osjfLess day ts i j = true)
      ∧ (∀ (day : Nat) (ts : List Ticket) (i j : Nat),
          ¬ (ts.getD i default).startday < (ts.getD j default).startday →
          osjfLess day ts i j
            = decide ((ts.getD i default).remaining.getD day 0
                < (ts.getD j default).remaining.getD day 0))
      ∧ osjfOrder 1 [Ticket.mk 0 1 0 5 [5, 0, 0], Ticket.mk 1 0 0 3 [0, 3, 0]]
        = [0, 1] := by
  refine ⟨?_, ?_, by decide⟩
  · intro day ts i j h
    unfold osjfLess
    rw [if_pos h]
  · intro day ts i j h
    unfold osjfLess
    rw [if_neg h]

/-- Witness for `osjf_comparator_behavior` at concrete tickets. -/
theorem osjf_comparator_behavior_witness :
    osjfLess 1 [Ticket.mk 0 1 0 5 [5, 0, 0], Ticket.mk 1 0 0 3 [0, 3, 0]] 0 1 = true
      ∧ osjfLess 2 [Ticket.mk 1 2 1 13 [0, 13, 5, 0], Ticket.mk 2 0 0 1 [0, 0, 1, 0]] 1 0
        = decide ((1 : Int) < 5) :=
  ⟨osjf_comparator_behavior.1 1 [Ticket.mk 0 1 0 5 [5, 0, 0], Ticket.mk 1 0 0 3 [0, 3, 0]]
      0 1 (by decide),
    by
      have h := osjf_comparator_behavior.2.1 2
        [Ticket.mk 1 2 1 13 [0, 13, 5, 0], Ticket.mk 2 0 0 1 [0, 0, 1, 0]] 1 0 (by decide)
      simpa using h⟩

/-- Models Go float64 values flowing through `statsLeadTime` as `Option ℚ`:
`none` models a non-finite value (NaN, or an infinity — in `statsLeadTime` the
only reachable non-finite value is the NaN produced by the `0/0` of an empty
population and its propagation).  Division by zero yields `none`. -/
def fdiv : Option ℚ → Option ℚ → Option ℚ
  | some a, some b => if b = 0 then none else some (a / b)
  | _, _ => none

/-- NaN-propagating multiplication of the float model. -/
def fmul : Option ℚ → Option ℚ → Option ℚ
  | some a, some b => some (a * b)
  | _, _ => none

/-- NaN-propagating subtraction of the float model. -/
def fsub : Option ℚ → Option ℚ → Option ℚ
  | some a, some b => some (a - b)
  | _, _ => none

/-- NaN-propagating addition of the float model. -/
def fadd : Option ℚ → Option ℚ → Option ℚ
  | some a, some b => some (a + b)
  | _, _ => none

/-- `math.Sqrt` in the float model: NaN propagates, a negative radicand gives
NaN; a nonnegative finite square root is represented through `Rat.sqrt` (the
claims depend only on the NaN-ness of the statistics, never on the rounded
value of a finite square root). -/
def fsqrt : Option ℚ → Option ℚ
  | some a => if a < 0 then none else some (Rat.sqrt a)
  | none => none

/-- Embeds Go `simulation.statsLeadTime`: it sums `leadtime` and its square
over the whole population, then — with no emptiness check — computes
`meanSq := sumSq / l`, `mean := sum / l`,
`stdev := sqrt (meanSq - mean * mean)` and returns
`(mean, stdev, mean + stdev)`. -/
def statsLeadTime (ts : List Ticket) : Option ℚ × Option ℚ × Option ℚ :=
  let sum : ℚ := (ts.map (fun t => (t.leadtime : ℚ))).sum
  let sumSq : ℚ := (ts.map (fun t => (t.leadtime : ℚ) * (t.leadtime : ℚ))).sum
  let l : ℚ := (ts.length : ℚ)
  let meanSq := fdiv (some sumSq) (some l)
  let mean := fdiv (some sum) (some l)
  let stdev := fsqrt (fsub meanSq (fmul mean mean))
  (mean, stdev, fadd mean stdev)

/-- C8 counterexample: on the empty population `statsLeadTime` silently
produces NaN (modelled `none`) for the mean, the standard deviation and
mean+stdev — there is no distinct "undefined — no tickets" signal, the
divisions are `0/0`. -/
theorem statsLeadTime_empty_nan : statsLeadTime [] = (none, none, none) := by
  decide

/-- C8 amended: `statsLeadTime` has no emptiness check: on an empty population
all three results are NaN (modelled `none`), and the mean is NaN exactly when
the population is empty — callers must guard themselves. -/
theorem statsLeadTime_mean_nan_iff (ts : List Ticket) :
    ((statsLeadTime ts).1 = none ↔ ts = [])
      ∧ (ts = [] → statsLeadTime ts = (none, none, none)) := by
  constructor
  · constructor
    · intro h
      by_contra hne
      have hl : ((ts.length : ℚ)) ≠ 0 := by
        simp only [ne_eq, Nat.cast_eq_zero, List.length_eq_zero]
        exact hne
      simp only [statsLeadTime, fdiv, if_neg hl] at h
      exact Option.noConfusion h
    · intro h
      subst h
      rfl
  · intro h
    subst h
    rfl

/-- Witness for `statsLeadTime_mean_nan_iff` at the empty population. -/
theorem statsLeadTime_mean_nan_iff_witness :
    (statsLeadTime []).1 = none ∧ statsLeadTime [] = (none, none, none) :=
  ⟨(statsLeadTime_mean_nan_iff []).1.mpr rfl, (statsLeadTime_mean_nan_iff []).2 rfl⟩
